import Mathlib

/-!
Shallow embedding of `saba_core/src/url.rs`, a minimal HTTP URL decomposer.
Rust strings are modelled as `List Char`; Rust byte indices coincide with
character indices on the inputs considered here, so `str::find`, slicing,
`splitn`, `split`, `trim_start_matches` and `contains` are modelled as the
corresponding character-list operations.  `Url::parse(&mut self)` is modelled
in state-passing style: it returns the post-call state together with the
`Result` value (`Ok` carries the updated state, mirroring `Ok(self)`).
-/

/-- Boolean test that `p` is a prefix of `s`, the model of Rust
`str::starts_with` as used implicitly by `trim_start_matches`. -/
def hasPrefixB : List Char → List Char → Bool
  | [], _ => true
  | _ :: _, [] => false
  | p :: ps, x :: xs => p == x && hasPrefixB ps xs

/-- Model of Rust `str::contains(needle)`: substring containment, i.e. the
needle is a prefix of some suffix of the haystack. -/
def strContains : List Char → List Char → Bool
  | [], needle => hasPrefixB needle []
  | x :: t, needle => hasPrefixB needle (x :: t) || strContains t needle

/-- One fuel-indexed step layer of Rust `str::trim_start_matches(pat)`:
while the string starts with the (non-empty) pattern, drop it.  Each
successful step removes at least one character, so `s.length` fuel is
always enough (see `trimAux_spec`). -/
def trimAux (pat : List Char) : Nat → List Char → List Char
  | 0, s => s
  | fuel + 1, s =>
    if pat ≠ [] ∧ hasPrefixB pat s = true then
      trimAux pat fuel (s.drop pat.length)
    else
      s

/-- Model of Rust `str::trim_start_matches(pat)`: repeatedly removes the
pattern from the front while it is a prefix. -/
def trimStartMatches (pat s : List Char) : List Char :=
  trimAux pat s.length s

/-- Model of Rust `str::splitn(2, c)` collected into a list: at most two
parts, the text before the first occurrence of `c` and (when `c` occurs)
the whole rest after it.  The result always has one or two elements. -/
def splitn2 (c : Char) : List Char → List (List Char)
  | [] => [[]]
  | x :: t =>
    if x = c then [[], t]
    else
      match splitn2 c t with
      | [] => [[x]]
      | p :: rest => (x :: p) :: rest

/-- Model of Rust `str::split(c)` collected into a list: all parts between
occurrences of `c`.  The result is always non-empty. -/
def splitAll (c : Char) : List Char → List (List Char)
  | [] => [[]]
  | x :: t =>
    if x = c then [] :: splitAll c t
    else
      match splitAll c t with
      | [] => [[x]]
      | p :: rest => (x :: p) :: rest

/-- Model of Rust `str::find(c)`: index of the first occurrence of the
character `c`, if any. -/
def findCharIdx (c : Char) : List Char → Option Nat
  | [] => none
  | x :: t => if x = c then some 0 else (findCharIdx c t).map (fun i => i + 1)

/-- The literal scheme marker `"http://"`. -/
def httpScheme : List Char := "http://".data

/-- The fixed error message of the only error kind. -/
def onlyHttpMsg : List Char := "Only HTTP is supported.".data

/-- The `Url` struct of `url.rs`: the raw url text plus the four derived
fields. -/
structure Url where
  url : List Char
  host : List Char
  port : List Char
  path : List Char
  searchpart : List Char
deriving DecidableEq, Repr

/-- `Url::new`: store the raw text verbatim, all derived fields empty. -/
def Url.new (url : List Char) : Url :=
  { url := url, host := [], port := [], path := [], searchpart := [] }

/-- `fn url_parts`: strip the scheme with `trim_start_matches("http://")`
and split the rest into at most two parts on the first `/`. -/
def url_parts (full_url : List Char) : List (List Char) :=
  splitn2 '/' (trimStartMatches httpScheme full_url)

/-- `Url::is_http`: the raw text contains the substring `"http://"`. -/
def Url.is_http (self : Url) : Bool :=
  strContains self.url httpScheme

/-- `Url::extract_host`: first part of `url_parts`, cut before the first
`:` when one is present.  The `nth(0).unwrap()` of the source is modelled
by `headD []`; `url_parts` is never empty (`url_parts_ne_nil`). -/
def Url.extract_host (self : Url) : List Char :=
  let first_part := (url_parts self.url).headD []
  match findCharIdx ':' first_part with
  | some index => first_part.take index
  | none => first_part

/-- `Url::extract_port`: text after the first `:` of the first part of
`url_parts`, or the default `"80"`. -/
def Url.extract_port (self : Url) : List Char :=
  let first_part := (url_parts self.url).headD []
  match findCharIdx ':' first_part with
  | some index => first_part.drop (index + 1)
  | none => "80".data

/-- `Url::extract_path`: empty when `url_parts` has fewer than two parts;
otherwise the text of part 1 before the first `?`.  The source's
`nth(1).unwrap()` is modelled by `getD 1 []` (reached only when the length
is at least 2) and `split('?').nth(0).unwrap()` by `headD []`
(`splitAll` is never empty, `splitAll_ne_nil`). -/
def Url.extract_path (self : Url) : List Char :=
  let parts := url_parts self.url
  if parts.length < 2 then
    []
  else
    (splitAll '?' (parts.getD 1 [])).headD []

/-- `Url::extract_searchpart`: empty when `url_parts` has fewer than two
parts; otherwise split part 1 on the first `?` with `splitn(2, '?')` and
return the second piece, or empty when there is none. -/
def Url.extract_searchpart (self : Url) : List Char :=
  let parts := url_parts self.url
  if parts.length < 2 then
    []
  else
    let path_and_searchpart := splitn2 '?' (parts.getD 1 [])
    if path_and_searchpart.length < 2 then
      []
    else
      path_and_searchpart.getD 1 []

/-- `Url::parse`: fail with the fixed message when the scheme marker is
absent (leaving the state untouched), otherwise set the four derived
fields.  Returns (post-state, returned `Result`). -/
def Url.parse (self : Url) : Url × Except (List Char) Url :=
  if self.is_http = false then
    (self, Except.error onlyHttpMsg)
  else
    let v : Url :=
      { self with
        host := self.extract_host
        port := self.extract_port
        path := self.extract_path
        searchpart := self.extract_searchpart }
    (v, Except.ok v)

deriving instance DecidableEq for Except

/-- `n` concatenated copies of a list, used to state what repeated
prefix-trimming removes. -/
def repList (pat : List Char) : Nat → List Char
  | 0 => []
  | n + 1 => pat ++ repList pat n

theorem hasPrefixB_iff (p s : List Char) :
    hasPrefixB p s = true ↔ ∃ t, s = p ++ t := by
  induction p generalizing s with
  | nil => simp [hasPrefixB]
  | cons a ps ih =>
    cases s with
    | nil =>
      simp [hasPrefixB]
    | cons x xs =>
      simp only [hasPrefixB, Bool.and_eq_true, beq_iff_eq, ih, List.cons_append,
        List.cons.injEq]
      constructor
      · rintro ⟨rfl, t, rfl⟩
        exact ⟨t, rfl, rfl⟩
      · rintro ⟨t, rfl, rfl⟩
        exact ⟨rfl, t, rfl⟩

theorem hasPrefixB_append (p t : List Char) : hasPrefixB p (p ++ t) = true :=
  (hasPrefixB_iff p (p ++ t)).mpr ⟨t, rfl⟩

theorem hasPrefixB_nil_of_ne (p : List Char) (h : p ≠ []) :
    hasPrefixB p [] = false := by
  cases p with
  | nil => exact absurd rfl h
  | cons a ps => rfl

theorem strContains_of_hasPrefixB (hay needle : List Char)
    (h : hasPrefixB needle hay = true) : strContains hay needle = true := by
  cases hay with
  | nil => simpa [strContains] using h
  | cons x t => simp [strContains, h]

theorem strContains_iff (hay needle : List Char) :
    strContains hay needle = true ↔ ∃ a b, hay = a ++ (needle ++ b) := by
  induction hay with
  | nil =>
    simp only [strContains, hasPrefixB_iff]
    constructor
    · rintro ⟨t, ht⟩
      exact ⟨[], t, ht⟩
    · rintro ⟨a, b, hab⟩
      obtain ⟨ha, hn, hb⟩ : a = [] ∧ needle = [] ∧ b = [] := by
        rcases List.append_eq_nil.mp hab.symm with ⟨ha, h2⟩
        rcases List.append_eq_nil.mp h2 with ⟨hn, hb⟩
        exact ⟨ha, hn, hb⟩
      exact ⟨b, by simp [hn, hb]⟩
  | cons x t ih =>
    simp only [strContains, Bool.or_eq_true, hasPrefixB_iff, ih]
    constructor
    · rintro (⟨u, hu⟩ | ⟨a, b, hab⟩)
      · exact ⟨[], u, by simpa using hu⟩
      · exact ⟨x :: a, b, by simp [hab]⟩
    · rintro ⟨a, b, hab⟩
      cases a with
      | nil =>
        exact Or.inl ⟨b, by simpa using hab⟩
      | cons y a' =>
        simp only [List.cons_append, List.cons.injEq] at hab
        exact Or.inr ⟨a', b, hab.2⟩

theorem trimAux_of_not_hasPrefixB (pat s : List Char)
    (h : hasPrefixB pat s = false) : ∀ fuel, trimAux pat fuel s = s := by
  intro fuel
  cases fuel with
  | zero => rfl
  | succ k => simp [trimAux, h]

theorem trimStartMatches_of_not_hasPrefixB (pat s : List Char)
    (h : hasPrefixB pat s = false) : trimStartMatches pat s = s :=
  trimAux_of_not_hasPrefixB pat s h s.length

theorem trimAux_spec (pat : List Char) (hp : pat ≠ []) :
    ∀ fuel s, s.length ≤ fuel →
      (∃ n, s = repList pat n ++ trimAux pat fuel s) ∧
      hasPrefixB pat (trimAux pat fuel s) = false := by
  intro fuel
  induction fuel with
  | zero =>
    intro s hs
    have hnil : s = [] := List.eq_nil_of_length_eq_zero (Nat.le_zero.mp hs)
    subst hnil
    exact ⟨⟨0, rfl⟩, hasPrefixB_nil_of_ne pat hp⟩
  | succ k ih =>
    intro s hs
    by_cases hpre : hasPrefixB pat s = true
    · obtain ⟨t, rfl⟩ := (hasPrefixB_iff pat s).mp hpre
      have hdrop : (pat ++ t).drop pat.length = t := List.drop_left pat t
      have hstep : trimAux pat (k + 1) (pat ++ t) = trimAux pat k t := by
        simp [trimAux, hp, hpre, hdrop]
      have hlen : t.length ≤ k := by
        have hple : 1 ≤ pat.length := by
          cases pat with
          | nil => exact absurd rfl hp
          | cons a ps => exact Nat.succ_le_succ (Nat.zero_le _)
        have := hs
        simp only [List.length_append] at this
        omega
      obtain ⟨⟨n, hn⟩, hnp⟩ := ih t hlen
      refine ⟨⟨n + 1, ?_⟩, by rw [hstep]; exact hnp⟩
      rw [hstep, repList]
      simp [← hn]
    · have hf : hasPrefixB pat s = false := by
        cases h : hasPrefixB pat s with
        | false => rfl
        | true => exact absurd h hpre
      rw [trimAux_of_not_hasPrefixB pat s hf]
      exact ⟨⟨0, rfl⟩, hf⟩

theorem splitn2_ne_nil (c : Char) (s : List Char) : splitn2 c s ≠ [] := by
  cases s with
  | nil => simp [splitn2]
  | cons x t =>
    simp only [splitn2]
    by_cases hx : x = c
    · simp [hx]
    · simp only [hx, if_false]
      cases splitn2 c t with
      | nil => simp
      | cons p rest => simp

theorem splitn2_of_not_mem (c : Char) (s : List Char) (h : c ∉ s) :
    splitn2 c s = [s] := by
  induction s with
  | nil => rfl
  | cons x t ih =>
    have hx : x ≠ c := fun hxc => h (hxc ▸ List.mem_cons_self x t)
    have ht : c ∉ t := fun hct => h (List.mem_cons_of_mem x hct)
    simp [splitn2, hx, ih ht]

theorem splitn2_append (c : Char) (a b : List Char) (h : c ∉ a) :
    splitn2 c (a ++ c :: b) = [a, b] := by
  induction a with
  | nil => simp [splitn2]
  | cons x a' ih =>
    have hx : x ≠ c := fun hxc => h (hxc ▸ List.mem_cons_self x a')
    have ha : c ∉ a' := fun hca => h (List.mem_cons_of_mem x hca)
    simp [splitn2, hx, ih ha]

theorem splitAll_ne_nil (c : Char) (s : List Char) : splitAll c s ≠ [] := by
  cases s with
  | nil => simp [splitAll]
  | cons x t =>
    simp only [splitAll]
    by_cases hx : x = c
    · simp [hx]
    · simp only [hx, if_false]
      cases splitAll c t with
      | nil => simp
      | cons p rest => simp

theorem splitAll_of_not_mem (c : Char) (s : List Char) (h : c ∉ s) :
    splitAll c s = [s] := by
  induction s with
  | nil => rfl
  | cons x t ih =>
    have hx : x ≠ c := fun hxc => h (hxc ▸ List.mem_cons_self x t)
    have ht : c ∉ t := fun hct => h (List.mem_cons_of_mem x hct)
    simp [splitAll, hx, ih ht]

theorem splitAll_append (c : Char) (a b : List Char) (h : c ∉ a) :
    splitAll c (a ++ c :: b) = a :: splitAll c b := by
  induction a with
  | nil => simp [splitAll]
  | cons x a' ih =>
    have hx : x ≠ c := fun hxc => h (hxc ▸ List.mem_cons_self x a')
    have ha : c ∉ a' := fun hca => h (List.mem_cons_of_mem x hca)
    rw [List.cons_append]
    simp only [splitAll, hx, if_false, ih ha]

theorem findCharIdx_of_not_mem (c : Char) (s : List Char) (h : c ∉ s) :
    findCharIdx c s = none := by
  induction s with
  | nil => rfl
  | cons x t ih =>
    have hx : x ≠ c := fun hxc => h (hxc ▸ List.mem_cons_self x t)
    have ht : c ∉ t := fun hct => h (List.mem_cons_of_mem x hct)
    simp [findCharIdx, hx, ih ht]

theorem findCharIdx_append (c : Char) (a b : List Char) (h : c ∉ a) :
    findCharIdx c (a ++ c :: b) = some a.length := by
  induction a with
  | nil => simp [findCharIdx]
  | cons x a' ih =>
    have hx : x ≠ c := fun hxc => h (hxc ▸ List.mem_cons_self x a')
    have ha : c ∉ a' := fun hca => h (List.mem_cons_of_mem x hca)
    simp [findCharIdx, hx, ih ha]

theorem parse_of_not_http (self : Url) (h : self.is_http = false) :
    self.parse = (self, Except.error onlyHttpMsg) := by
  simp [Url.parse, h]

theorem parse_of_http (self : Url) (h : self.is_http = true) :
    self.parse =
      ({ self with
          host := self.extract_host
          port := self.extract_port
          path := self.extract_path
          searchpart := self.extract_searchpart },
       Except.ok
        { self with
          host := self.extract_host
          port := self.extract_port
          path := self.extract_path
          searchpart := self.extract_searchpart }) := by
  simp [Url.parse, h]

theorem parse_ok_fields (self v : Url) (h : (self.parse).2 = Except.ok v) :
    self.is_http = true ∧ v.url = self.url ∧
    v.host = self.extract_host ∧ v.port = self.extract_port ∧
    v.path = self.extract_path ∧ v.searchpart = self.extract_searchpart := by
  by_cases hh : self.is_http = true
  · rw [parse_of_http self hh] at h
    simp only [Except.ok.injEq] at h
    subst h
    exact ⟨hh, rfl, rfl, rfl, rfl, rfl⟩
  · rw [parse_of_not_http self (Bool.not_eq_true _ ▸ hh)] at h
    simp at h

theorem extracts_depend_only_url (s1 s2 : Url) (h : s1.url = s2.url) :
    s1.is_http = s2.is_http ∧ s1.extract_host = s2.extract_host ∧
    s1.extract_port = s2.extract_port ∧ s1.extract_path = s2.extract_path ∧
    s1.extract_searchpart = s2.extract_searchpart := by
  simp [Url.is_http, Url.extract_host, Url.extract_port, Url.extract_path,
    Url.extract_searchpart, h]

theorem parse_fixed (s : Url) (h : s.is_http = true)
    (h1 : s.host = s.extract_host) (h2 : s.port = s.extract_port)
    (h3 : s.path = s.extract_path) (h4 : s.searchpart = s.extract_searchpart) :
    s.parse = (s, Except.ok s) := by
  rw [parse_of_http s h]
  have hs : { s with
      host := s.extract_host
      port := s.extract_port
      path := s.extract_path
      searchpart := s.extract_searchpart } = s := by
    cases s
    simp only [Url.mk.injEq]
    exact ⟨trivial, h1.symm, h2.symm, h3.symm, h4.symm⟩
  rw [hs]

theorem parse_url_inv (self : Url) : ((self.parse).1).url = self.url := by
  by_cases hh : self.is_http = true
  · rw [parse_of_http self hh]
  · rw [parse_of_not_http self (by simpa using hh)]

example :
    (Url.new ("http://example.com:8888/index.html?a=123&b=456".data)).parse =
      ({ url := "http://example.com:8888/index.html?a=123&b=456".data,
         host := "example.com".data, port := "8888".data,
         path := "index.html".data, searchpart := "a=123&b=456".data },
       Except.ok
        { url := "http://example.com:8888/index.html?a=123&b=456".data,
          host := "example.com".data, port := "8888".data,
          path := "index.html".data, searchpart := "a=123&b=456".data }) := by
  decide

example :
    (Url.new ("https://example.com".data)).parse =
      (Url.new ("https://example.com".data), Except.error onlyHttpMsg) := by
  decide

example :
    trimStartMatches httpScheme ("http://http://x".data) = "x".data := by
  decide

example :
    ((Url.new ("foo http://bar".data)).parse).1.host = "foo http".data := by
  decide

/-- C1: `parse` returns an error if and only if the stored raw text does not
contain the substring `"http://"` anywhere (containment, not prefix); the
error value is exactly `"Only HTTP is supported."`, and whenever the raw
text contains `"http://"` anywhere, `parse` returns success. -/
theorem parse_error_iff_no_scheme (self : Url) :
    ((self.parse).2 = Except.error ("Only HTTP is supported.".data) ↔
      strContains self.url ("http://".data) = false) ∧
    ((∃ v, (self.parse).2 = Except.ok v) ↔
      strContains self.url ("http://".data) = true) ∧
    (∀ e, (self.parse).2 = Except.error e →
      e = "Only HTTP is supported.".data) := by
  have hsch : httpScheme = "http://".data := rfl
  by_cases hh : self.is_http = true
  · have hc : strContains self.url ("http://".data) = true := by
      rw [← hsch]; exact hh
    rw [parse_of_http self hh]
    simp [hc]
  · have hf : self.is_http = false := by simpa using hh
    have hc : strContains self.url ("http://".data) = false := by
      rw [← hsch]; exact hf
    rw [parse_of_not_http self hf]
    simp [hc, onlyHttpMsg]

theorem parse_error_iff_no_scheme_witness :
    ((Url.new ("abc".data)).parse).2 =
      Except.error ("Only HTTP is supported.".data) ∧
    strContains ("abc".data) ("http://".data) = false :=
  ⟨(parse_error_iff_no_scheme (Url.new ("abc".data))).1.mpr (by decide),
   by decide⟩

/-- C5: failure atomicity — whenever `parse` returns the error, the post-call
state has host, port, path, searchpart and raw text all equal to their
pre-call values, in any starting field state. -/
theorem parse_failure_atomic (self : Url) (e : List Char)
    (h : (self.parse).2 = Except.error e) :
    (self.parse).1.host = self.host ∧ (self.parse).1.port = self.port ∧
    (self.parse).1.path = self.path ∧
    (self.parse).1.searchpart = self.searchpart ∧
    (self.parse).1.url = self.url := by
  by_cases hh : self.is_http = true
  · rw [parse_of_http self hh] at h
    simp at h
  · rw [parse_of_not_http self (by simpa using hh)]
    exact ⟨rfl, rfl, rfl, rfl, rfl⟩

theorem parse_failure_atomic_witness :
    (({ url := "zzz".data, host := "h".data, port := "p".data,
        path := "q".data, searchpart := "s".data } : Url).parse).2 =
      Except.error onlyHttpMsg ∧
    ((({ url := "zzz".data, host := "h".data, port := "p".data,
         path := "q".data, searchpart := "s".data } : Url).parse).1.host =
        "h".data ∧
     (({ url := "zzz".data, host := "h".data, port := "p".data,
         path := "q".data, searchpart := "s".data } : Url).parse).1.port =
        "p".data ∧
     (({ url := "zzz".data, host := "h".data, port := "p".data,
         path := "q".data, searchpart := "s".data } : Url).parse).1.path =
        "q".data ∧
     (({ url := "zzz".data, host := "h".data, port := "p".data,
         path := "q".data, searchpart := "s".data } : Url).parse).1.searchpart =
        "s".data ∧
     (({ url := "zzz".data, host := "h".data, port := "p".data,
         path := "q".data, searchpart := "s".data } : Url).parse).1.url =
        "zzz".data) :=
  ⟨by decide, parse_failure_atomic _ onlyHttpMsg (by decide)⟩

/-- C8: parsing is idempotent — running `parse` again on the post-call state
(raw text unchanged) returns the same outcome and the same field values. -/
theorem parse_idempotent (self : Url) :
    (((self.parse).1).parse).1 = (self.parse).1 ∧
    (((self.parse).1).parse).2 = (self.parse).2 := by
  by_cases hh : self.is_http = true
  · obtain ⟨hi, hho, hpo, hpa, hse⟩ :=
      extracts_depend_only_url
        { self with
            host := self.extract_host
            port := self.extract_port
            path := self.extract_path
            searchpart := self.extract_searchpart } self rfl
    have hfix := parse_fixed
      { self with
          host := self.extract_host
          port := self.extract_port
          path := self.extract_path
          searchpart := self.extract_searchpart }
      (by rw [hi]; exact hh) hho.symm hpo.symm hpa.symm hse.symm
    rw [parse_of_http self hh]
    constructor
    · show ((({ self with
          host := self.extract_host
          port := self.extract_port
          path := self.extract_path
          searchpart := self.extract_searchpart } : Url).parse).1 = _)
      rw [hfix]
    · show ((({ self with
          host := self.extract_host
          port := self.extract_port
          path := self.extract_path
          searchpart := self.extract_searchpart } : Url).parse).2 = _)
      rw [hfix]
  · have hf : self.is_http = false := by simpa using hh
    simp [parse_of_not_http self hf]

/-- C9: frame property — `parse` never modifies the stored raw url text:
the constructor stores the input verbatim and the post-call state of any
`parse` call keeps the raw text unchanged (the only other fields of the
struct are the four derived ones). -/
theorem parse_preserves_raw (u : List Char) (self : Url) :
    (Url.new u).url = u ∧ ((Url.new u).parse).1.url = u ∧
    (self.parse).1.url = self.url :=
  ⟨rfl, parse_url_inv (Url.new u), parse_url_inv self⟩

theorem trimAux_append_step (pat r : List Char) (hp : pat ≠ []) (fuel : Nat) :
    trimAux pat (fuel + 1) (pat ++ r) = trimAux pat fuel r := by
  have hdrop : (pat ++ r).drop pat.length = r := List.drop_left pat r
  simp [trimAux, hp, hasPrefixB_append, hdrop]

theorem trimStartMatches_append_of_not (pat r : List Char) (hp : pat ≠ [])
    (h : hasPrefixB pat r = false) :
    trimStartMatches pat (pat ++ r) = r := by
  cases pat with
  | nil => exact absurd rfl hp
  | cons a ps =>
    show trimAux (a :: ps) (((a :: ps) ++ r).length) ((a :: ps) ++ r) = r
    have hlen : ((a :: ps) ++ r).length = (ps.length + r.length) + 1 := by
      simp
    rw [hlen, trimAux_append_step (a :: ps) r (by simp) _]
    exact trimAux_of_not_hasPrefixB (a :: ps) r h _

theorem hasPrefixB_httpScheme_false (r : List Char) (h : ':' ∉ r) :
    hasPrefixB httpScheme r = false := by
  cases hb : hasPrefixB httpScheme r with
  | false => rfl
  | true =>
    obtain ⟨t, rfl⟩ := (hasPrefixB_iff _ _).mp hb
    exact absurd (List.mem_append_left t (by decide)) h

/-- C2: for every raw input of the form `"http://"` ++ remainder where the
remainder contains no `':'`, `'/'` or `'?'`, parse succeeds with host the
remainder, port `"80"`, path empty and searchpart empty. -/
theorem parse_http_simple (r : List Char)
    (hc : ':' ∉ r) (hs : '/' ∉ r) (_hq : '?' ∉ r) :
    ((Url.new ("http://".data ++ r)).parse).2 =
      Except.ok { url := "http://".data ++ r, host := r, port := "80".data,
                  path := [], searchpart := [] } := by
  have hsch : ("http://".data : List Char) = httpScheme := rfl
  rw [hsch]
  have hnp : hasPrefixB httpScheme r = false := hasPrefixB_httpScheme_false r hc
  have htrim : trimStartMatches httpScheme (httpScheme ++ r) = r :=
    trimStartMatches_append_of_not _ _ (by decide) hnp
  have hparts : url_parts (httpScheme ++ r) = [r] := by
    rw [url_parts, htrim, splitn2_of_not_mem '/' r hs]
  have hhttp : (Url.new (httpScheme ++ r)).is_http = true :=
    strContains_of_hasPrefixB _ _ (hasPrefixB_append httpScheme r)
  rw [parse_of_http _ hhttp]
  have hhost : (Url.new (httpScheme ++ r)).extract_host = r := by
    simp [Url.extract_host, Url.new, hparts, findCharIdx_of_not_mem ':' r hc]
  have hport : (Url.new (httpScheme ++ r)).extract_port = "80".data := by
    simp [Url.extract_port, Url.new, hparts, findCharIdx_of_not_mem ':' r hc]
  have hpath : (Url.new (httpScheme ++ r)).extract_path = [] := by
    simp [Url.extract_path, Url.new, hparts]
  have hsea : (Url.new (httpScheme ++ r)).extract_searchpart = [] := by
    simp [Url.extract_searchpart, Url.new, hparts]
  simp only [Url.new] at hhost hport hpath hsea
  simp [Url.new, hhost, hport, hpath, hsea]

theorem parse_http_simple_witness :
    (':' ∉ "example.com".data ∧ '/' ∉ "example.com".data ∧
      '?' ∉ "example.com".data) ∧
    ((Url.new ("http://".data ++ "example.com".data)).parse).2 =
      Except.ok { url := "http://".data ++ "example.com".data,
                  host := "example.com".data, port := "80".data,
                  path := [], searchpart := [] } :=
  ⟨⟨by decide, by decide, by decide⟩,
   parse_http_simple ("example.com".data) (by decide) (by decide) (by decide)⟩

/-- C3 (amended): scheme stripping removes every leading occurrence of
`"http://"`, not just the first: the scheme-stripped remainder is the raw
text with a maximal run of leading copies of `"http://"` removed, and never
itself begins with `"http://"`; for raw `"http://http://x"` the remainder
is `"x"`. -/
theorem trim_removes_all_leading (s : List Char) :
    (∃ n, s = repList httpScheme n ++ trimStartMatches httpScheme s) ∧
    hasPrefixB httpScheme (trimStartMatches httpScheme s) = false ∧
    trimStartMatches httpScheme ("http://http://x".data) = "x".data := by
  obtain ⟨h1, h2⟩ := trimAux_spec httpScheme (by decide) s.length s le_rfl
  exact ⟨h1, h2, by decide⟩

/-- C3 counterexample: the claim says stripping removes exactly one leading
occurrence, so `"http://http://x"` would leave `"http://x"`; the code's
`trim_start_matches` leaves `"x"`. -/
theorem trim_single_strip_cex :
    trimStartMatches httpScheme ("http://http://x".data) = "x".data ∧
    trimStartMatches httpScheme ("http://http://x".data) ≠ "http://x".data :=
  ⟨by decide, by decide⟩

theorem drop_after_sep (c : Char) (a b : List Char) :
    (a ++ c :: b).drop (a.length + 1) = b := by
  induction a with
  | nil => rfl
  | cons x a' ih =>
    simp only [List.cons_append, List.length_cons, List.drop_succ_cons]
    exact ih

/-- C4 (amended): after every successful parse the port field is the text
after the first `':'` of the authority when the authority contains one
(this text may be empty, e.g. for a trailing bare colon), and the default
`"80"` otherwise; it is not always non-empty. -/
theorem port_after_colon_or_default (self v : Url)
    (h : (self.parse).2 = Except.ok v) :
    (∀ a b, (url_parts self.url).headD [] = a ++ ':' :: b → ':' ∉ a →
      v.port = b) ∧
    (':' ∉ (url_parts self.url).headD [] → v.port = "80".data) := by
  obtain ⟨hh, hurl, hho, hpo, hpa, hse⟩ := parse_ok_fields self v h
  constructor
  · intro a b hab hna
    rw [hpo]
    simp only [Url.extract_port, hab]
    rw [findCharIdx_append ':' a b hna]
    exact drop_after_sep ':' a b
  · intro hn
    rw [hpo]
    simp only [Url.extract_port]
    rw [findCharIdx_of_not_mem ':' _ hn]

theorem port_after_colon_or_default_witness :
    ((Url.new ("http://h:9/x".data)).parse).2 =
      Except.ok { url := "http://h:9/x".data, host := "h".data,
                  port := "9".data, path := "x".data, searchpart := [] } ∧
    ({ url := "http://h:9/x".data, host := "h".data, port := "9".data,
       path := "x".data, searchpart := [] } : Url).port = "9".data :=
  ⟨by decide,
   (port_after_colon_or_default (Url.new ("http://h:9/x".data))
      { url := "http://h:9/x".data, host := "h".data, port := "9".data,
        path := "x".data, searchpart := [] } (by decide)).1
     ("h".data) ("9".data) (by decide) (by decide)⟩

/-- C4 counterexample: the input `"http://a:"` parses successfully and the
port field is the empty string, refuting "the port field is a non-empty
string" after every successful parse. -/
theorem port_empty_after_success :
    ((Url.new ("http://a:".data)).parse).2 =
      Except.ok { url := "http://a:".data, host := "a".data, port := [],
                  path := [], searchpart := [] } ∧
    ((Url.new ("http://a:".data)).parse).1.port = [] :=
  ⟨by decide, by decide⟩

/-- C6: for every successful parse, if the scheme-stripped remainder has no
`'/'` then path and searchpart are both empty; otherwise, writing the
remainder as `a ++ '/' :: b` with the first `'/'` shown, path is the text
of `b` before its first `'?'` (all of `b` when `b` has no `'?'`) and
searchpart is everything after that first `'?'` (later `'?'` characters
kept literally), or empty when `b` has no `'?'`. -/
theorem path_searchpart_extraction (self v : Url)
    (h : (self.parse).2 = Except.ok v) :
    ('/' ∉ trimStartMatches httpScheme self.url →
      v.path = [] ∧ v.searchpart = []) ∧
    (∀ a b, trimStartMatches httpScheme self.url = a ++ '/' :: b →
      '/' ∉ a →
      ('?' ∉ b → v.path = b ∧ v.searchpart = []) ∧
      (∀ p q, b = p ++ '?' :: q → '?' ∉ p →
        v.path = p ∧ v.searchpart = q)) := by
  obtain ⟨hh, hurl, hho, hpo, hpa, hse⟩ := parse_ok_fields self v h
  constructor
  · intro hns
    have hparts : url_parts self.url = [trimStartMatches httpScheme self.url] := by
      rw [url_parts, splitn2_of_not_mem '/' _ hns]
    constructor
    · rw [hpa]; simp [Url.extract_path, hparts]
    · rw [hse]; simp [Url.extract_searchpart, hparts]
  · intro a b hab hna
    have hparts : url_parts self.url = [a, b] := by
      rw [url_parts, hab, splitn2_append '/' a b hna]
    constructor
    · intro hq
      constructor
      · rw [hpa]
        simp [Url.extract_path, hparts, splitAll_of_not_mem '?' b hq]
      · rw [hse]
        simp [Url.extract_searchpart, hparts, splitn2_of_not_mem '?' b hq]
    · intro p q hpq hnp
      subst hpq
      constructor
      · rw [hpa]
        simp [Url.extract_path, hparts, splitAll_append '?' p q hnp]
      · rw [hse]
        simp [Url.extract_searchpart, hparts, splitn2_append '?' p q hnp]

theorem path_searchpart_extraction_witness :
    ((Url.new ("http://e.com/a?b?c".data)).parse).2 =
      Except.ok { url := "http://e.com/a?b?c".data, host := "e.com".data,
                  port := "80".data, path := "a".data,
                  searchpart := "b?c".data } ∧
    (({ url := "http://e.com/a?b?c".data, host := "e.com".data,
        port := "80".data, path := "a".data,
        searchpart := "b?c".data } : Url).path = "a".data ∧
     ({ url := "http://e.com/a?b?c".data, host := "e.com".data,
        port := "80".data, path := "a".data,
        searchpart := "b?c".data } : Url).searchpart = "b?c".data) :=
  ⟨by decide,
   ((path_searchpart_extraction (Url.new ("http://e.com/a?b?c".data))
      { url := "http://e.com/a?b?c".data, host := "e.com".data,
        port := "80".data, path := "a".data, searchpart := "b?c".data }
      (by decide)).2
     ("e.com".data) ("a?b?c".data) (by decide) (by decide)).2
     ("a".data) ("b?c".data) (by decide) (by decide)⟩

/-- C7: when the raw text contains `"http://"` somewhere but not as a
prefix, the strip operation leaves the text unmodified, parse succeeds,
and the parts fed to field extraction come from the full unstripped text;
for `"foo http://bar"` the authority (part 0) is `"foo http:"` and the
extracted host is `"foo http"`. -/
theorem parse_scheme_not_at_start (s : List Char)
    (h1 : strContains s ("http://".data) = true)
    (h2 : hasPrefixB ("http://".data) s = false) :
    trimStartMatches httpScheme s = s ∧
    ((Url.new s).parse).2 = Except.ok ((Url.new s).parse).1 ∧
    url_parts s = splitn2 '/' s ∧
    ((url_parts ("foo http://bar".data)).headD [] = "foo http:".data ∧
     ((Url.new ("foo http://bar".data)).parse).1.host = "foo http".data) := by
  have htrim : trimStartMatches httpScheme s = s :=
    trimStartMatches_of_not_hasPrefixB _ _ h2
  have hhttp : (Url.new s).is_http = true := h1
  refine ⟨htrim, ?_, ?_, by decide, by decide⟩
  · rw [parse_of_http _ hhttp]
  · rw [url_parts, htrim]

theorem parse_scheme_not_at_start_witness :
    (strContains ("foo http://bar".data) ("http://".data) = true ∧
     hasPrefixB ("http://".data) ("foo http://bar".data) = false) ∧
    (trimStartMatches httpScheme ("foo http://bar".data) =
        "foo http://bar".data ∧
     ((Url.new ("foo http://bar".data)).parse).2 =
        Except.ok ((Url.new ("foo http://bar".data)).parse).1 ∧
     url_parts ("foo http://bar".data) =
        splitn2 '/' ("foo http://bar".data) ∧
     ((url_parts ("foo http://bar".data)).headD [] = "foo http:".data ∧
      ((Url.new ("foo http://bar".data)).parse).1.host = "foo http".data)) :=
  ⟨⟨by decide, by decide⟩,
   parse_scheme_not_at_start ("foo http://bar".data) (by decide) (by decide)⟩

theorem url_parts_ne_nil (u : List Char) : url_parts u ≠ [] :=
  splitn2_ne_nil '/' _

theorem getElem1_ne_none_of_two_le {α : Type} (l : List α)
    (h : 2 ≤ l.length) : l[1]? ≠ none := by
  cases l with
  | nil => simp at h
  | cons a t =>
    cases t with
    | nil => simp at h
    | cons b t' => simp

/-- C10: totality — `parse` always returns Ok or the fixed error; splitting
the stripped text always yields a part 0 (the `nth(0)` unwraps in host and
port extraction succeed), `split('?')` always yields a first piece, and
the `nth(1)` unwraps in path and searchpart extraction succeed whenever
their guarding count checks pass. -/
theorem parse_total_unwraps (self : Url) :
    (url_parts self.url)[0]? ≠ none ∧
    (2 ≤ (url_parts self.url).length → (url_parts self.url)[1]? ≠ none) ∧
    (∀ t : List Char, (splitAll '?' t)[0]? ≠ none) ∧
    (∀ t : List Char, 2 ≤ (splitn2 '?' t).length →
      (splitn2 '?' t)[1]? ≠ none) ∧
    ((self.parse).2 = Except.ok ((self.parse).1) ∨
     (self.parse).2 = Except.error onlyHttpMsg) := by
  refine ⟨?_, ?_, ?_, ?_, ?_⟩
  · cases hq : url_parts self.url with
    | nil => exact absurd hq (url_parts_ne_nil _)
    | cons a t => simp
  · exact getElem1_ne_none_of_two_le _
  · intro t
    cases hq : splitAll '?' t with
    | nil => exact absurd hq (splitAll_ne_nil _ _)
    | cons a r => simp
  · intro t
    exact getElem1_ne_none_of_two_le _
  · by_cases hh : self.is_http = true
    · rw [parse_of_http self hh]
      exact Or.inl rfl
    · rw [parse_of_not_http self (by simpa using hh)]
      exact Or.inr rfl

theorem parse_total_unwraps_witness :
    (2 ≤ (url_parts ((Url.new ("http://e/a?b".data)).url)).length ∧
     2 ≤ (splitn2 '?' ("a?b".data)).length) ∧
    ((url_parts ((Url.new ("http://e/a?b".data)).url))[1]? ≠ none ∧
     (splitn2 '?' ("a?b".data))[1]? ≠ none) :=
  ⟨⟨by decide, by decide⟩,
   ⟨(parse_total_unwraps (Url.new ("http://e/a?b".data))).2.1 (by decide),
    (parse_total_unwraps (Url.new ("http://e/a?b".data))).2.2.2.1
      ("a?b".data) (by decide)⟩⟩
